import Mathlib

/-!
Verification development for the mango chapter-acquisition pipeline.

The Go sources embedded here:
- `packer` (ArchiveCBZ, GetCBZFilename, sanitizeFilename, ArchiveMultipleChapters,
  BundleChapters) — pure string/byte manipulation plus filesystem effects, which we
  model with an explicit association-list filesystem.
- `downloader` (FetchChapter) — a concurrent bounded-parallelism fetcher, which we
  model as a small-step state machine whose nondeterminism (goroutine scheduling and
  Go `select` choice) is resolved by an explicit schedule parameter.

Machine integers: Go `uint`/`int64` page numbers are modelled as `Nat` (all values in
the claims are small and nonnegative; no overflow is reachable there). Go `float64`
chapter numbers are modelled as `ℚ`; the claims' values (1, 1.5, 10) are exactly
representable in binary floating point, so the rational model agrees with the float
semantics on every input the claims mention.
-/

namespace Mango

/-- Downloaded file, from `downloader.File`: `Data []byte`, `Page uint`.
Bytes are modelled as `List Nat`. -/
structure File where
  Data : List Nat
  Page : Nat
deriving DecidableEq, Repr

/-! ## Decimal rendering helpers (Go `fmt` verbs `%d`, `%03d`, `%.0f`, `%.1f`) -/

/-- Character for a single decimal digit `d < 10`. -/
def digitChar (d : Nat) : Char := Char.ofNat (48 + d)

/-- Fuel-indexed big-endian decimal digits of `n`; `decChars n n` is exact because
the number of digits of `n` is at most `n` for `n ≥ 1`. -/
def decChars : Nat → Nat → List Char
  | 0, _ => []
  | fuel + 1, n => if n = 0 then [] else decChars fuel (n / 10) ++ [digitChar (n % 10)]

/-- Decimal rendering of a natural number, as Go `fmt` prints a nonnegative integer. -/
def natToDec (n : Nat) : String :=
  if n = 0 then "0" else String.mk (decChars n n)

/-- Decimal rendering of an integer. -/
def intToDec (i : Int) : String :=
  if i < 0 then "-" ++ natToDec i.natAbs else natToDec i.toNat

/-- Go `fmt.Sprintf("%03d", n)`: decimal, zero-padded on the left to width 3. -/
def pad3 (n : Nat) : String :=
  let s := natToDec n
  if s.length < 3 then String.mk (List.replicate (3 - s.length) '0') ++ s else s

namespace Packer

/-- Error conditions surfaced by the packer, from the `errors.New`/`fmt.Errorf`
values in `packer.go`. -/
inductive PackErr where
  | noFilesToPack
  | alreadyExists (path : String)
  | noChaptersToPack
  | chapterFailed (key : String) (e : PackErr)
deriving DecidableEq, Repr

/-- A zip container: its entries, in central-directory (= creation) order.
`zip.OpenReader` lists entries in the order `zip.Writer.Create` produced them. -/
abbrev Container := List (String × List Nat)

/-- Filesystem model: association list from path to file value. Only the files the
packer reads or writes are modelled; directories are not (Go `os.MkdirAll` is
modelled as always succeeding). A pre-existing non-zip file is represented by an
arbitrary `Container` value, since only its identity matters to the claims. -/
abbrev FS := List (String × Container)

/-- Canonical destination name, from `ArchiveCBZ`:
`if !strings.HasSuffix(strings.ToLower(filename), ".cbz") { filename += ".cbz" }`.
The lower-casing and suffix test are computed on the character list (equivalent
to Go's byte-level test for the ASCII strings involved). -/
def cbzName (filename : String) : String :=
  if ['.', 'c', 'b', 'z'].isSuffixOf (filename.toList.map Char.toLower)
  then filename else filename ++ ".cbz"

/-- Zip entries written by the `for i, file := range files` loop of `ArchiveCBZ`:
entry name `fmt.Sprintf("%03d.jpg", file.Page)`, data `file.Data`, in slice order. -/
def archiveEntries (files : List File) : Container :=
  files.map (fun f => (pad3 f.Page ++ ".jpg", f.Data))

/-- Progress calls `progress(1, i)` issued by the entry loop of `ArchiveCBZ`,
one per entry, in order. -/
def archiveProgress (files : List File) : List (Nat × Nat) :=
  (List.range files.length).map (fun i => (1, i))

/-- Model of `packer.ArchiveCBZ`. Returns the filesystem after the call, the
progress calls made, and the error if any. `os.OpenFile(..., O_EXCL, ...)` fails
exactly when the canonical path already exists; OS-level I/O failures
(directory-creation, entry-creation, write) are outside the filesystem model, so
the corresponding `fmt.Errorf` branches of the source are unreachable here. -/
def ArchiveCBZ (filename : String) (files : List File) (fs : FS) :
    FS × List (Nat × Nat) × Option PackErr :=
  if files.isEmpty then (fs, [], some .noFilesToPack)
  else
    let fname := cbzName filename
    if (fs.lookup fname).isSome then (fs, [], some (.alreadyExists fname))
    else ((fname, archiveEntries files) :: fs, archiveProgress files, none)

/-- Characters replaced by `_` in `sanitizeFilename`. -/
def invalidChars : List Char := ['/', '\\', ':', '*', '?', '"', '<', '>', '|']

/-- Model of `packer.sanitizeFilename`: replace invalid characters with `_`,
`strings.TrimRight(result, " .")`, then truncate to 200. The Go truncation
`result[:200]` slices bytes; for the ASCII strings of the claims bytes and
characters coincide. -/
def sanitizeFilename (filename : String) : String :=
  let replaced := filename.toList.map (fun c => if c ∈ invalidChars then '_' else c)
  let trimmed := (replaced.reverse.dropWhile (fun c => c == ' ' || c == '.')).reverse
  String.mk (trimmed.take 200)

/-- Go `fmt.Sprintf("%.1f", x)` for nonnegative `x` (chapter numbers are
nonnegative): one digit after the decimal point, rounded to nearest with ties to
even, the rounding of Go's `strconv`/`fmt` float formatting. The computation
rounds `10 * q = (10 * q.num) / q.den` to the nearest integer `n` and prints
`n / 10 "." n % 10`, working on numerator and denominator directly. -/
def fmtOneDec (q : ℚ) : String :=
  let a : Int := 10 * q.num
  let b : Int := (q.den : Int)
  let f := a.fdiv b
  let r := a.fmod b
  let n := (if 2 * r < b then f
    else if b < 2 * r then f + 1
    else if f % 2 = 0 then f else f + 1).toNat
  natToDec (n / 10) ++ "." ++ natToDec (n % 10)

/-- The chapter-number string of `GetCBZFilename`: `%.1f`, overridden by `%.0f`
when `chapterNumber == float64(int64(chapterNumber))`. In the rational model that
integrality test is `q.den = 1`. -/
def formatChapterNumber (q : ℚ) : String :=
  if q.den = 1 then intToDec q.num else fmtOneDec q

/-- Model of `packer.GetCBZFilename`. -/
def GetCBZFilename (title : String) (chapterNumber : ℚ) (chapterTitle : String) : String :=
  let base := sanitizeFilename title ++ " - Chapter " ++ formatChapterNumber chapterNumber
  let withCh :=
    if chapterTitle = "" then base else base ++ " - " ++ sanitizeFilename chapterTitle
  withCh ++ ".cbz"

/-- The per-chapter loop of `ArchiveMultipleChapters`. Go iterates its `chapters`
map in unspecified order; the model takes the iteration order as the list order.
`processed` accumulates `processedFiles`, offsetting the wrapped progress calls. -/
def amcLoop (baseDir : String) (titles : String → String) (nums : String → ℚ)
    (processed : Nat) (fs : FS) (calls : List (Nat × Nat)) :
    List (String × List File) → FS × List (Nat × Nat) × Option PackErr
  | [] => (fs, calls, none)
  | (key, files) :: rest =>
    if files.isEmpty then amcLoop baseDir titles nums processed fs calls rest
    else
      let fullPath := baseDir ++ "/" ++ GetCBZFilename (titles key) (nums key) ""
      match ArchiveCBZ fullPath files fs with
      | (fs2, calls2, none) =>
        amcLoop baseDir titles nums (processed + files.length) fs2
          (calls ++ calls2.map (fun pr => (pr.1, processed + pr.2))) rest
      | (_, _, some e) => (fs, calls, some (.chapterFailed key e))

/-- Model of `packer.ArchiveMultipleChapters`: one container per nonempty group,
named `GetCBZFilename(titles[key], chapterNumbers[key], "")` inside `baseDir`;
`os.MkdirAll(baseDir)` is modelled as succeeding. On a failing group the source
does `return fmt.Errorf("failed to archive chapter %s: %w", chapterKey, err)`. -/
def ArchiveMultipleChapters (baseDir : String) (chapters : List (String × List File))
    (titles : String → String) (nums : String → ℚ) (fs : FS) :
    FS × List (Nat × Nat) × Option PackErr :=
  if chapters.isEmpty then (fs, [], some .noChaptersToPack)
  else amcLoop baseDir titles nums 0 fs [] chapters

/-- The out-of-order input of the round-trip scenario: pages 1, 3, 2 with contents
A, B, C (ASCII codes 65, 66, 67). -/
def roundTripFiles : List File := [⟨[65], 1⟩, ⟨[66], 3⟩, ⟨[67], 2⟩]

/-- Two chapter groups for the multi-chapter scenario. -/
def twoChapters : List (String × List File) := [("c1", [⟨[1], 1⟩]), ("c2", [⟨[2], 1⟩])]

/-- Per-group titles for the multi-chapter scenario. -/
def twoTitles : String → String := fun _ => "T"

/-- Per-group chapter numbers for the multi-chapter scenario. -/
def twoNums : String → ℚ := fun k => if k = "c2" then mkRat 2 1 else mkRat 1 1

/-- Filesystem in which the first group's destination already exists, making the
first group fail. -/
def clashFS : FS := [("d/T - Chapter 1.cbz", [])]

end Packer

/-! ## The concurrent chapter downloader

`downloader.FetchChapter` is concurrent Go code. We embed it as a small-step
state machine: each worker goroutine is a sequence of atomic actions taken from
the source's goroutine body, the bounded channel `guard := make(chan struct{}, 5)`
is the launch guard, `errChan` (capacity 1) is `errSlot`, `fileChan` (capacity N)
is `fileBuf`, and the collector loop of the main goroutine is given by the
`recv*`/`drain`/`finish` steps. Scheduling nondeterminism — goroutine
interleaving and the pseudo-random choice Go's `select` makes among ready
cases — is resolved by an explicit schedule: a list of steps, each enabled only
when the corresponding Go statement could execute. `dRun` is the interpreter;
universally quantifying over schedules quantifies over all interleavings. -/

namespace Downloader

/-- One page of the input chapter together with the environment's response to
`http.Get` for its URL: `body = some bytes` when the fetch succeeds, `none` when
it fails (transport error, bad status, or read failure). `number` is
`page.Number` (`int64` in Go, nonnegative here). -/
structure PageSpec where
  number : Nat
  body : Option (List Nat)
deriving DecidableEq, Repr

/-- The file `FetchFile` builds for a page whose fetch succeeds:
`&File{Data: data, Page: uint(page.Number)}`. -/
def specFile (p : PageSpec) : File := ⟨p.body.getD [], p.number⟩

/-- Program counter of one worker goroutine, following the source's
`go func(page grabber.Page, idx int)` body:
success path `toSend → toCb → inCb → toRelease → released`
(`fileChan <- file`, then `onprogress(1, idx, nil)`, then `<-guard`);
failure path `toTryErr`, then either the `errChan <- ...` send wins and the
worker continues `toCb → inCb → toRelease → released`
(`onprogress(idx, idx, err)` then `<-guard`), or the `default` branch is taken
and the worker goes directly to `toRelease → released`. -/
inductive WPhase where
  | toSend (f : File)
  | toTryErr
  | toCb
  | inCb
  | toRelease
  | released
deriving DecidableEq, Repr

/-- Whether a worker has released its guard slot. -/
def WPhase.isReleased : WPhase → Bool
  | .released => true
  | _ => false

/-- Whether a worker has begun its progress-callback invocation. -/
def WPhase.pastCb : WPhase → Bool
  | .inCb => true
  | .toRelease => true
  | .released => true
  | _ => false

/-- Observable callback events: begin and end of one `onprogress` invocation by
worker `i`. Two invocations overlap when a begin falls between another's begin
and end. -/
inductive TEvent where
  | cbBegin (i : Nat)
  | cbEnd (i : Nat)
deriving DecidableEq, Repr

/-- Machine state of one `FetchChapter` run. `launched` counts iterations of the
launch loop completed (= `guard` sends), `phases` the program counters of the
launched workers, `errSlot` the content of `errChan`, `fileBuf` the buffered
content of `fileChan`, `doneClosed`/`chClosed` whether `close(done)` and
`close(fileChan)` have executed, `collecting` whether the main goroutine is
still in its `for collecting` select loop, `files`/`downloadErr` the main
goroutine's locals, `events` the callback trace, and `result` the return value
once the function returns. -/
structure DState where
  launched : Nat
  phases : List WPhase
  errSlot : Option Nat
  fileBuf : List File
  doneClosed : Bool
  chClosed : Bool
  collecting : Bool
  files : List File
  downloadErr : Option Nat
  events : List TEvent
  result : Option (Option (List File) × Option Nat)
deriving DecidableEq, Repr

/-- Initial state. -/
def initD : DState :=
  { launched := 0, phases := [], errSlot := none, fileBuf := [], doneClosed := false,
    chClosed := false, collecting := true, files := [], downloadErr := none,
    events := [], result := none }

/-- Atomic steps. `launch` is one iteration of the launch loop (guard send plus
goroutine creation plus its `FetchFile` call, whose outcome is `PageSpec.body`);
`closeDone`/`closeFiles` are the closer goroutine's two statements after
`wg.Wait()`; `recvErr`/`recvFile`/`recvDone` are the three cases of the
collector's `select`; `drain` is one iteration of `for file := range fileChan`;
`finish` is the function's return. -/
inductive DStep where
  | launch
  | sendFile (i : Nat)
  | tryErr (i : Nat)
  | cbBegin (i : Nat)
  | cbEnd (i : Nat)
  | release (i : Nat)
  | closeDone
  | closeFiles
  | recvErr
  | recvFile
  | recvDone
  | drain
  | finish
deriving DecidableEq, Repr

/-- Number of guard slots currently held: workers launched but not yet past
`<-guard`. -/
def inFlight (s : DState) : Nat := s.phases.countP (fun φ => ! φ.isReleased)

/-- Phase a freshly launched worker starts in, by its fetch outcome. -/
def launchPhase (p : PageSpec) : WPhase :=
  match p.body with
  | some b => .toSend ⟨b, p.number⟩
  | none => .toTryErr

/-- Page number reported in the error for worker `i`
(`fmt.Errorf("page %d: %w", page.Number, err)`). -/
def pageNum (inputs : List PageSpec) (i : Nat) : Nat :=
  ((inputs.get? i).map PageSpec.number).getD 0

/-- Stable insertion preserving earlier elements in front of later equal-keyed
ones: the effect of Go's `sort.SliceStable` with
`less(i,j) = files[i].Page < files[j].Page`. -/
def insertByPage (f : File) : List File → List File
  | [] => [f]
  | g :: gs => if g.Page < f.Page then g :: insertByPage f gs else f :: g :: gs

/-- Stable sort by ascending `Page`, the `sort.SliceStable` call of
`FetchChapter`. -/
def sortByPage (l : List File) : List File := l.foldr insertByPage []

/-- One atomic step of the machine: `none` when the step is not enabled (the
corresponding Go statement is blocked or its program point is not reached). -/
def dStep (inputs : List PageSpec) (s : DState) : DStep → Option DState
  | .launch =>
    match inputs.get? s.launched with
    | some p =>
      if inFlight s < 5 then
        some { s with launched := s.launched + 1, phases := s.phases ++ [launchPhase p] }
      else none
    | none => none
  | .sendFile i =>
    match s.phases.get? i with
    | some (.toSend f) =>
      some { s with fileBuf := s.fileBuf ++ [f], phases := s.phases.set i .toCb }
    | _ => none
  | .tryErr i =>
    match s.phases.get? i with
    | some .toTryErr =>
      match s.errSlot with
      | none =>
        some { s with errSlot := some (pageNum inputs i), phases := s.phases.set i .toCb }
      | some _ => some { s with phases := s.phases.set i .toRelease }
    | _ => none
  | .cbBegin i =>
    match s.phases.get? i with
    | some .toCb =>
      some { s with phases := s.phases.set i .inCb, events := s.events ++ [.cbBegin i] }
    | _ => none
  | .cbEnd i =>
    match s.phases.get? i with
    | some .inCb =>
      some { s with phases := s.phases.set i .toRelease, events := s.events ++ [.cbEnd i] }
    | _ => none
  | .release i =>
    match s.phases.get? i with
    | some .toRelease => some { s with phases := s.phases.set i .released }
    | _ => none
  | .closeDone =>
    if s.launched = inputs.length ∧ s.phases.all WPhase.isReleased = true ∧
        s.doneClosed = false then
      some { s with doneClosed := true }
    else none
  | .closeFiles =>
    if s.doneClosed = true ∧ s.chClosed = false then some { s with chClosed := true }
    else none
  | .recvErr =>
    if s.launched = inputs.length ∧ s.collecting = true then
      match s.errSlot with
      | some e =>
        some { s with downloadErr := some e, errSlot := none, collecting := false }
      | none => none
    else none
  | .recvFile =>
    if s.launched = inputs.length ∧ s.collecting = true then
      match s.fileBuf with
      | f :: rest => some { s with files := s.files ++ [f], fileBuf := rest }
      | [] => if s.chClosed = true then some s else none
    else none
  | .recvDone =>
    if s.launched = inputs.length ∧ s.collecting = true ∧ s.doneClosed = true then
      some { s with collecting := false }
    else none
  | .drain =>
    if s.collecting = false ∧ s.result = none then
      match s.fileBuf with
      | f :: rest => some { s with files := s.files ++ [f], fileBuf := rest }
      | [] => none
    else none
  | .finish =>
    if s.collecting = false ∧ s.result = none ∧ s.chClosed = true ∧ s.fileBuf = [] then
      some { s with result := some (match s.downloadErr with
        | some e => (none, some e)
        | none => (some (sortByPage s.files), none)) }
    else none

/-- Run the machine under a schedule; `none` when the schedule takes a step that
is not enabled. -/
def dRun (inputs : List PageSpec) : List DStep → DState → Option DState
  | [], s => some s
  | st :: rest, s =>
    match dStep inputs s st with
    | some s2 => dRun inputs rest s2
    | none => none

/-- Number of callback invocations begun in a trace. -/
def countCb (events : List TEvent) : Nat :=
  events.countP (fun e => match e with | .cbBegin _ => true | _ => false)

/-- Whether, scanning from the begin event of worker `i`, another invocation
begins before worker `i`'s invocation ends. -/
def openOverlap (i : Nat) : List TEvent → Bool
  | [] => false
  | .cbBegin _ :: _ => true
  | .cbEnd j :: rest => if j = i then false else openOverlap i rest

/-- Whether two callback invocations overlap in a trace: some invocation's begin
falls strictly between another's begin and end. -/
def hasOverlap : List TEvent → Bool
  | [] => false
  | .cbBegin i :: rest => openOverlap i rest || hasOverlap rest
  | .cbEnd _ :: rest => hasOverlap rest

/-- Files still waiting to be sent by their workers. -/
def pendingOf : List WPhase → List File
  | [] => []
  | .toSend f :: ps => f :: pendingOf ps
  | _ :: ps => pendingOf ps

/-- Multiset of success files currently in the main goroutine's `files` local,
buffered in `fileChan`, or still held by their workers. -/
def collMS (s : DState) : Multiset File :=
  (s.files : Multiset File) + (s.fileBuf : Multiset File) +
    (pendingOf s.phases : Multiset File)

/-- General machine invariant, independent of fetch outcomes. -/
def BaseInv (inputs : List PageSpec) (s : DState) : Prop :=
  s.phases.length = s.launched ∧
  s.launched ≤ inputs.length ∧
  inFlight s ≤ 5 ∧
  (s.doneClosed = true → s.launched = inputs.length ∧
    s.phases.all WPhase.isReleased = true) ∧
  (s.chClosed = true → s.doneClosed = true) ∧
  (s.result.isSome = true → s.chClosed = true ∧ s.collecting = false ∧
    s.fileBuf = []) ∧
  (s.collecting = true → s.result = none)

/-- Invariant for runs in which every fetch succeeds. -/
def SuccInv (inputs : List PageSpec) (s : DState) : Prop :=
  (∀ φ ∈ s.phases, φ ≠ .toTryErr) ∧
  s.errSlot = none ∧
  s.downloadErr = none ∧
  collMS s = ((inputs.take s.launched).map specFile : Multiset File) ∧
  countCb s.events = s.phases.countP WPhase.pastCb ∧
  (∀ r, s.result = some r → r = (some (sortByPage s.files), none))

/-- Scenario for the dropped-error schedule: page 1 succeeds with one byte of
data, page 2 fails. -/
def dropPages : List PageSpec := [⟨1, some [7]⟩, ⟨2, none⟩]

/-- A valid schedule in which both workers finish before the collector runs, the
collector's `select` picks the (ready) closed `done` channel rather than the
(ready) `errChan`, and the buffered success file is drained: the captured error
is silently dropped. Every step is enabled, so this is a real interleaving of
the Go code. -/
def dropSched : List DStep :=
  [.launch, .launch, .sendFile 0, .cbBegin 0, .cbEnd 0, .release 0, .tryErr 1,
    .cbBegin 1, .cbEnd 1, .release 1, .closeDone, .closeFiles, .recvDone, .drain,
    .finish]

/-- Two successfully fetched pages. -/
def twoOkPages : List PageSpec := [⟨1, some [1]⟩, ⟨2, some [2]⟩]

/-- A schedule for `twoOkPages` in which worker 1's callback begins after worker
0's begins and before worker 0's ends: the two invocations overlap. -/
def overlapSched : List DStep :=
  [.launch, .launch, .sendFile 0, .sendFile 1, .cbBegin 0, .cbBegin 1, .cbEnd 0,
    .cbEnd 1, .release 0, .release 1, .closeDone, .closeFiles, .recvFile, .recvFile,
    .recvDone, .finish]

/-- A second overlapping schedule for `twoOkPages`, with the sends and callback
begins in the opposite worker order and the buffered files drained after the
collector exits. -/
def overlapSched2 : List DStep :=
  [.launch, .launch, .sendFile 1, .sendFile 0, .cbBegin 1, .cbBegin 0, .cbEnd 1,
    .cbEnd 0, .release 0, .release 1, .closeDone, .closeFiles, .recvDone, .drain,
    .drain, .finish]

/-- Two failing pages. -/
def twoFailPages : List PageSpec := [⟨1, none⟩, ⟨2, none⟩]

/-- A schedule for `twoFailPages`: worker 0's error send wins `errChan` and its
callback runs; worker 1 finds the slot occupied, takes the `default` branch and
invokes no callback. -/
def twoFailSched : List DStep :=
  [.launch, .launch, .tryErr 0, .cbBegin 0, .cbEnd 0, .release 0, .tryErr 1,
    .release 1, .closeDone, .closeFiles, .recvErr, .finish]

/-- Ordering of downloaded files by ascending page number. -/
def pageLE (a b : File) : Prop := a.Page ≤ b.Page

/-- A single successfully fetched page. -/
def onePage : List PageSpec := [⟨1, some [9]⟩]

/-- A complete schedule for `onePage`. -/
def onePageSched : List DStep :=
  [.launch, .sendFile 0, .cbBegin 0, .cbEnd 0, .release 0, .closeDone, .closeFiles,
    .recvFile, .recvDone, .finish]

end Downloader

/-! ## Theorems about the packer -/

namespace Packer

theorem decChars_digits (fuel : Nat) : ∀ n : Nat, ∀ c ∈ decChars fuel n,
    ∃ d : Nat, d < 10 ∧ c = digitChar d := by
  induction fuel with
  | zero => intro n c hc; simp [decChars] at hc
  | succ k ih =>
    intro n c hc
    by_cases h : n = 0
    · simp [decChars, h] at hc
    · simp only [decChars, h, if_false, List.mem_append, List.mem_singleton] at hc
      rcases hc with hc | hc
      · exact ih _ c hc
      · exact ⟨n % 10, Nat.mod_lt _ (by norm_num), hc⟩

theorem natToDec_digits (n : Nat) : ∀ c ∈ (natToDec n).toList,
    ∃ d : Nat, d < 10 ∧ c = digitChar d := by
  intro c hc
  by_cases h : n = 0
  · rw [natToDec, if_pos h] at hc
    simp at hc
    exact ⟨0, by norm_num, by rw [hc]; decide⟩
  · simp only [natToDec, h, if_false] at hc
    exact decChars_digits n n c hc

theorem digitChar_ne_dot {d : Nat} (hd : d < 10) : digitChar d ≠ '.' := by
  interval_cases d <;> decide

theorem natToDec_len_one {m : Nat} (hm : m < 10) : (natToDec m).length = 1 := by
  interval_cases m <;> decide

theorem intToDec_nonneg_digits (i : Int) (hi : 0 ≤ i) : ∀ c ∈ (intToDec i).toList,
    ∃ d : Nat, d < 10 ∧ c = digitChar d := by
  intro c hc
  simp only [intToDec, not_lt.mpr hi, if_neg (not_lt.mpr hi)] at hc
  exact natToDec_digits _ c hc

/-- C8: `ArchiveCBZ` on an empty file collection fails with the identifiable
"nothing to pack" condition (`errors.New("no files to pack")` in the source),
for every destination path, writing nothing. -/
theorem archiveCBZ_empty_files_error (filename : String) (fs : FS) :
    ArchiveCBZ filename [] fs = (fs, [], some PackErr.noFilesToPack) := rfl

/-- C7: `ArchiveCBZ` invoked with a destination whose canonical path already
exists fails with the "already exists" error and returns the filesystem
unchanged, so the pre-existing destination keeps its contents. -/
theorem archiveCBZ_existing_destination_untouched (filename : String)
    (files : List File) (fs : FS) (hne : files ≠ [])
    (hex : (fs.lookup (cbzName filename)).isSome = true) :
    ArchiveCBZ filename files fs =
      (fs, [], some (PackErr.alreadyExists (cbzName filename))) := by
  cases files with
  | nil => exact absurd rfl hne
  | cons f fsrest => simp [ArchiveCBZ, hex]

/-- Witness for C7 at a concrete input: destination `existing.cbz` is present,
the call fails with "already exists" and the filesystem is unchanged. -/
theorem archiveCBZ_existing_destination_untouched_witness :
    ([⟨[1], 1⟩] : List File) ≠ [] ∧
    (([("existing.cbz", [("001.jpg", [9])])] : FS).lookup
      (cbzName "existing.cbz")).isSome = true ∧
    ArchiveCBZ "existing.cbz" [⟨[1], 1⟩] [("existing.cbz", [("001.jpg", [9])])] =
      ([("existing.cbz", [("001.jpg", [9])])], [],
        some (PackErr.alreadyExists (cbzName "existing.cbz"))) :=
  ⟨by decide, by decide,
    archiveCBZ_existing_destination_untouched "existing.cbz" [⟨[1], 1⟩]
      [("existing.cbz", [("001.jpg", [9])])] (by decide) (by decide)⟩

/-- C5 counterexample: archiving `{page:1,A}, {page:3,B}, {page:2,C}` supplied in
that order does NOT produce entries in listing order 001, 002, 003 with contents
A, C, B — the writer emits entries in input order, so the listing order is
001, 003, 002 with contents A, B, C. -/
theorem archiveCBZ_listing_order_counterexample :
    ¬ ((ArchiveCBZ "out.cbz" roundTripFiles []).1.lookup "out.cbz" =
      some [("001.jpg", [65]), ("002.jpg", [67]), ("003.jpg", [66])]) := by
  decide

/-- C5 amended: the container's entries, in listing order, follow the order the
files were supplied, each entry named by the 3-digit zero-padded page number of
that file (not its array position) with extension `.jpg` and holding that file's
data. For the out-of-order input 1, 3, 2 the listing order is therefore
001, 003, 002. -/
theorem archiveCBZ_entries_follow_input_order (filename : String)
    (files : List File) (fs : FS) (hne : files ≠ [])
    (hfresh : fs.lookup (cbzName filename) = none) :
    ((ArchiveCBZ filename files fs).1).lookup (cbzName filename) =
      some (archiveEntries files) := by
  cases files with
  | nil => exact absurd rfl hne
  | cons f fsrest =>
    simp [ArchiveCBZ, hfresh, List.lookup]

/-- Witness for the amended C5 at the round-trip input: listing order is
`001.jpg` (A), `003.jpg` (B), `002.jpg` (C). -/
theorem archiveCBZ_entries_follow_input_order_witness :
    roundTripFiles ≠ [] ∧ (([] : FS).lookup (cbzName "out.cbz") = none) ∧
    ((ArchiveCBZ "out.cbz" roundTripFiles []).1).lookup (cbzName "out.cbz") =
      some (archiveEntries roundTripFiles) ∧
    archiveEntries roundTripFiles =
      [("001.jpg", [65]), ("003.jpg", [66]), ("002.jpg", [67])] :=
  ⟨by decide, by decide,
    archiveCBZ_entries_follow_input_order "out.cbz" roundTripFiles [] (by decide)
      (by decide), by decide⟩

/-- C6 counterexample: with the first group's destination already present, the
whole operation fails, and the second group's container is NOT created — the
source returns at the first failing group instead of continuing. -/
theorem archiveMultipleChapters_stops_counterexample :
    (ArchiveMultipleChapters "d" twoChapters twoTitles twoNums clashFS).2.2.isSome
      = true ∧
    (ArchiveMultipleChapters "d" twoChapters twoTitles twoNums clashFS).1.lookup
      "d/T - Chapter 2.cbz" = none := by
  decide

/-- C6 amended: `ArchiveMultipleChapters` writes one container per nonempty group
named by the Filename Policy into the target directory, but on the first group
failure it returns immediately with that group's error wrapped as the whole
operation's result; later groups are not attempted, so the filesystem and
progress calls are exactly those accumulated before the failing group. Stated on
the per-group loop `amcLoop`, which covers a failure at any position of the
iteration. -/
theorem archiveMultipleChapters_first_error_stops (baseDir key : String)
    (titles : String → String) (nums : String → ℚ) (processed : Nat) (fs : FS)
    (calls : List (Nat × Nat)) (files : List File)
    (rest : List (String × List File)) (e : PackErr) (hne : files ≠ [])
    (hfail : (ArchiveCBZ (baseDir ++ "/" ++ GetCBZFilename (titles key) (nums key) "")
      files fs).2.2 = some e) :
    amcLoop baseDir titles nums processed fs calls ((key, files) :: rest) =
      (fs, calls, some (PackErr.chapterFailed key e)) := by
  have hemp : files.isEmpty = false := by
    cases files with
    | nil => exact absurd rfl hne
    | cons f l => rfl
  simp only [amcLoop, hemp, Bool.false_eq_true, if_false]
  rcases h : ArchiveCBZ (baseDir ++ "/" ++ GetCBZFilename (titles key) (nums key) "")
      files fs with ⟨fs2, calls2, err⟩
  rw [h] at hfail
  simp only at hfail
  subst hfail
  rfl

/-- Witness for the amended C6 at the concrete clash scenario: group `c1` fails
with "already exists", the loop returns that error wrapped and leaves the
filesystem and progress calls as they were. -/
theorem archiveMultipleChapters_first_error_stops_witness :
    ([⟨[1], 1⟩] : List File) ≠ [] ∧
    (ArchiveCBZ ("d" ++ "/" ++ GetCBZFilename (twoTitles "c1") (twoNums "c1") "")
      [⟨[1], 1⟩] clashFS).2.2 = some (PackErr.alreadyExists "d/T - Chapter 1.cbz") ∧
    amcLoop "d" twoTitles twoNums 0 clashFS [] [("c1", [⟨[1], 1⟩]), ("c2", [⟨[2], 1⟩])] =
      (clashFS, [], some (PackErr.chapterFailed "c1"
        (PackErr.alreadyExists "d/T - Chapter 1.cbz"))) :=
  ⟨by decide, by decide,
    archiveMultipleChapters_first_error_stops "d" "c1" twoTitles twoNums 0 clashFS []
      [⟨[1], 1⟩] [("c2", [⟨[2], 1⟩])] (PackErr.alreadyExists "d/T - Chapter 1.cbz")
      (by decide) (by decide)⟩

/-- C9: `GetCBZFilename` renders integral chapter numbers without a decimal point
and non-integral numbers with exactly one decimal digit, and its output always
ends in `.cbz`; in particular the two example filenames of the claim hold. The
chapter number (a Go `float64`) is modelled as a rational; the integrality test
`chapterNumber == float64(int64(chapterNumber))` becomes `q.den = 1`. -/
theorem getCBZFilename_number_formatting :
    GetCBZFilename "One Piece" 1 "Romance Dawn" =
      "One Piece - Chapter 1 - Romance Dawn.cbz" ∧
    GetCBZFilename "X" (mkRat 3 2) "" = "X - Chapter 1.5.cbz" ∧
    (∀ q : ℚ, 0 ≤ q →
      (q.den = 1 → ∀ c ∈ (formatChapterNumber q).toList, c ≠ '.') ∧
      (q.den ≠ 1 → ∃ a b : String, formatChapterNumber q = a ++ "." ++ b ∧
        b.length = 1 ∧ ∀ c ∈ a.toList, c ≠ '.')) ∧
    (∀ t c : String, ∀ q : ℚ, ∃ pre : String, GetCBZFilename t q c = pre ++ ".cbz") := by
  refine ⟨by decide, by decide, ?_, ?_⟩
  · intro q hq
    constructor
    · intro hden c hc
      rw [formatChapterNumber, if_pos hden] at hc
      obtain ⟨d, hd, rfl⟩ := intToDec_nonneg_digits q.num (Rat.num_nonneg.mpr hq) c hc
      exact digitChar_ne_dot hd
    · intro hden
      rw [formatChapterNumber, if_neg hden]
      refine ⟨_, _, rfl, natToDec_len_one (Nat.mod_lt _ (by norm_num)), ?_⟩
      intro c hc
      obtain ⟨d, hd, rfl⟩ := natToDec_digits _ c hc
      exact digitChar_ne_dot hd
  · intro t c q
    unfold GetCBZFilename
    exact ⟨_, rfl⟩

/-- Witness for C9 at `q = 3/2`: the hypotheses of the general clause hold and
the non-integral branch yields a one-digit fractional part. -/
theorem getCBZFilename_number_formatting_witness :
    (0 ≤ mkRat 3 2) ∧ (mkRat 3 2).den ≠ 1 ∧
    (∃ a b : String, formatChapterNumber (mkRat 3 2) = a ++ "." ++ b ∧
      b.length = 1 ∧ ∀ c ∈ a.toList, c ≠ '.') :=
  ⟨by decide, by decide,
    (getCBZFilename_number_formatting.2.2.1 (mkRat 3 2) (by decide)).2 (by decide)⟩

end Packer

/-! ## Theorems about the downloader -/

namespace Downloader

theorem countP_set_eq {α : Type} (p : α → Bool) :
    ∀ (l : List α) (i : Nat) (a b : α), l.get? i = some a → p a = p b →
      (l.set i b).countP p = l.countP p := by
  intro l
  induction l with
  | nil => intro i a b hget _; simp at hget
  | cons x xs ih =>
    intro i a b hget hpq
    cases i with
    | zero =>
      simp only [List.get?] at hget
      cases hget
      simp [List.set, List.countP_cons, hpq]
    | succ n =>
      simp only [List.get?] at hget
      simp [List.set, List.countP_cons, ih n a b hget hpq]

theorem countP_set_incr {α : Type} (p : α → Bool) :
    ∀ (l : List α) (i : Nat) (a b : α), l.get? i = some a → p a = false → p b = true →
      (l.set i b).countP p = l.countP p + 1 := by
  intro l
  induction l with
  | nil => intro i a b hget _ _; simp at hget
  | cons x xs ih =>
    intro i a b hget hpa hpb
    cases i with
    | zero =>
      simp only [List.get?] at hget
      cases hget
      simp [List.set, List.countP_cons, hpa, hpb]
    | succ n =>
      simp only [List.get?] at hget
      simp only [List.set, List.countP_cons, ih n a b hget hpa hpb]
      omega

theorem countP_set_decr {α : Type} (p : α → Bool) :
    ∀ (l : List α) (i : Nat) (a b : α), l.get? i = some a → p a = true → p b = false →
      (l.set i b).countP p + 1 = l.countP p := by
  intro l
  induction l with
  | nil => intro i a b hget _ _; simp at hget
  | cons x xs ih =>
    intro i a b hget hpa hpb
    cases i with
    | zero =>
      simp only [List.get?] at hget
      cases hget
      simp [List.set, List.countP_cons, hpa, hpb]
    | succ n =>
      simp only [List.get?] at hget
      simp only [List.set, List.countP_cons]
      rw [← ih n a b hget hpa hpb]
      omega

theorem all_released_get (phases : List WPhase) (i : Nat) (φ : WPhase)
    (hall : phases.all WPhase.isReleased = true) (hget : phases.get? i = some φ) :
    φ = .released := by
  have hm := List.get?_mem hget
  have hφ := (List.all_eq_true.mp hall) φ hm
  cases φ <;> simp [WPhase.isReleased] at hφ ⊢

theorem pendingOf_cons_not_toSend (x : WPhase) (hx : ∀ g, x ≠ .toSend g)
    (ps : List WPhase) : pendingOf (x :: ps) = pendingOf ps := by
  cases x <;> first | rfl | exact absurd rfl (hx _)

theorem pendingOf_append : ∀ l₁ l₂ : List WPhase,
    pendingOf (l₁ ++ l₂) = pendingOf l₁ ++ pendingOf l₂ := by
  intro l₁ l₂
  induction l₁ with
  | nil => rfl
  | cons x xs ih =>
    cases x <;> simp [pendingOf, ih]

theorem pendingOf_eq_nil (phases : List WPhase)
    (hall : phases.all WPhase.isReleased = true) : pendingOf phases = [] := by
  induction phases with
  | nil => rfl
  | cons x xs ih =>
    rw [List.all_cons] at hall
    obtain ⟨hx, hxs⟩ := Bool.and_eq_true_iff.mp hall
    have hx' : x = .released := by cases x <;> simp [WPhase.isReleased] at hx ⊢
    subst hx'
    simpa [pendingOf] using ih hxs

theorem pendingOf_set_stable : ∀ (l : List WPhase) (i : Nat) (a b : WPhase),
    l.get? i = some a → (∀ g, a ≠ .toSend g) → (∀ g, b ≠ .toSend g) →
    pendingOf (l.set i b) = pendingOf l := by
  intro l
  induction l with
  | nil => intro i a b hget _ _; simp at hget
  | cons x xs ih =>
    intro i a b hget ha hb
    cases i with
    | zero =>
      simp only [List.get?] at hget
      cases hget
      rw [List.set, pendingOf_cons_not_toSend b hb, pendingOf_cons_not_toSend x ha]
    | succ n =>
      simp only [List.get?] at hget
      cases x with
      | toSend f => simp [List.set, pendingOf, ih n a b hget ha hb]
      | toTryErr => simp [List.set, pendingOf, ih n a b hget ha hb]
      | toCb => simp [List.set, pendingOf, ih n a b hget ha hb]
      | inCb => simp [List.set, pendingOf, ih n a b hget ha hb]
      | toRelease => simp [List.set, pendingOf, ih n a b hget ha hb]
      | released => simp [List.set, pendingOf, ih n a b hget ha hb]

theorem pendingOf_set_remove : ∀ (l : List WPhase) (i : Nat) (f : File) (b : WPhase),
    l.get? i = some (.toSend f) → (∀ g, b ≠ .toSend g) →
    (pendingOf l : Multiset File) = f ::ₘ (pendingOf (l.set i b) : Multiset File) := by
  intro l
  induction l with
  | nil => intro i f b hget _; simp at hget
  | cons x xs ih =>
    intro i f b hget hb
    cases i with
    | zero =>
      simp only [List.get?] at hget
      cases hget
      rw [List.set, pendingOf_cons_not_toSend b hb]
      simp [pendingOf]
    | succ n =>
      simp only [List.get?] at hget
      cases x with
      | toSend g =>
        have := ih n f b hget hb
        simp only [List.set, pendingOf]
        rw [← Multiset.cons_coe, ← Multiset.cons_coe, this, Multiset.cons_swap]
      | toTryErr => simpa [List.set, pendingOf] using ih n f b hget hb
      | toCb => simpa [List.set, pendingOf] using ih n f b hget hb
      | inCb => simpa [List.set, pendingOf] using ih n f b hget hb
      | toRelease => simpa [List.set, pendingOf] using ih n f b hget hb
      | released => simpa [List.set, pendingOf] using ih n f b hget hb

theorem insertByPage_perm (f : File) : ∀ l : List File,
    (insertByPage f l).Perm (f :: l) := by
  intro l
  induction l with
  | nil => exact List.Perm.refl _
  | cons g gs ih =>
    simp only [insertByPage]
    split
    · exact (ih.cons g).trans (List.Perm.swap f g gs)
    · exact List.Perm.refl _

theorem sortByPage_perm : ∀ l : List File, (sortByPage l).Perm l := by
  intro l
  induction l with
  | nil => exact List.Perm.refl _
  | cons x xs ih =>
    exact (insertByPage_perm x (sortByPage xs)).trans (ih.cons x)

theorem insertByPage_pairwise (f : File) : ∀ l : List File,
    List.Pairwise pageLE l → List.Pairwise pageLE (insertByPage f l) := by
  intro l
  induction l with
  | nil => intro _; simp [insertByPage, pageLE]
  | cons g gs ih =>
    intro hp
    rw [List.pairwise_cons] at hp
    obtain ⟨hg, hgs⟩ := hp
    simp only [insertByPage]
    split
    case isTrue hlt =>
      rw [List.pairwise_cons]
      refine ⟨?_, ih hgs⟩
      intro y hy
      have hy2 : y ∈ f :: gs := (insertByPage_perm f gs).mem_iff.mp hy
      rcases List.mem_cons.mp hy2 with hy2 | hy2
      · subst hy2; exact Nat.le_of_lt hlt
      · exact hg y hy2
    case isFalse hge =>
      rw [List.pairwise_cons]
      constructor
      · intro y hy
        rcases List.mem_cons.mp hy with hy | hy
        · subst hy; exact Nat.le_of_not_lt hge
        · exact Nat.le_trans (Nat.le_of_not_lt hge) (hg y hy)
      · rw [List.pairwise_cons]
        exact ⟨hg, hgs⟩

theorem sortByPage_pairwise : ∀ l : List File,
    List.Pairwise pageLE (sortByPage l) := by
  intro l
  induction l with
  | nil => simp [sortByPage]
  | cons x xs ih => exact insertByPage_pairwise x (sortByPage xs) ih

theorem coeAppendF (l₁ l₂ : List File) :
    ((l₁ ++ l₂ : List File) : Multiset File) =
      (l₁ : Multiset File) + (l₂ : Multiset File) := rfl

theorem baseInv_init (inputs : List PageSpec) : BaseInv inputs initD := by
  refine ⟨rfl, Nat.zero_le _, ?_, ?_, ?_, ?_, ?_⟩
  · simp [inFlight, initD]
  · intro h; simp [initD] at h
  · intro h; simp [initD] at h
  · intro h; simp [initD] at h
  · intro _; rfl

theorem baseInv_step (inputs : List PageSpec) (s s2 : DState) (st : DStep)
    (hinv : BaseInv inputs s) (hstep : dStep inputs s st = some s2) :
    BaseInv inputs s2 := by
  obtain ⟨hlen, hle, hfl, hdone, hch, hres, hcoll⟩ := hinv
  cases st with
  | launch =>
    simp only [dStep] at hstep
    split at hstep
    next p hp =>
      by_cases hlt : inFlight s < 5
      · rw [if_pos hlt] at hstep
        injection hstep with h2
        subst h2
        have hlaunch : s.launched < inputs.length := by
          by_contra hge
          rw [List.get?_eq_none.mpr (Nat.le_of_not_lt hge)] at hp
          exact Option.noConfusion hp
        refine ⟨?_, hlaunch, ?_, ?_, hch, hres, hcoll⟩
        · simp [hlen]
        · show (s.phases ++ [launchPhase p]).countP (fun φ => ! φ.isReleased) ≤ 5
          rw [List.countP_append]
          have h1 : List.countP (fun φ => ! φ.isReleased) [launchPhase p] ≤ 1 :=
            List.countP_le_length _
          have h2 : s.phases.countP (fun φ => ! φ.isReleased) < 5 := hlt
          omega
        · intro hd
          exact absurd (hdone hd).1 (Nat.ne_of_lt hlaunch)
      · rw [if_neg hlt] at hstep
        exact Option.noConfusion hstep
    next hp => exact Option.noConfusion hstep
  | sendFile i =>
    simp only [dStep] at hstep
    split at hstep
    next f hp =>
      injection hstep with h2
      subst h2
      have he : (s.phases.set i WPhase.toCb).countP (fun φ => ! φ.isReleased) =
          s.phases.countP (fun φ => ! φ.isReleased) :=
        countP_set_eq _ s.phases i _ _ hp rfl
      refine ⟨?_, hle, ?_, ?_, hch, ?_, hcoll⟩
      · simp [hlen]
      · show (s.phases.set i WPhase.toCb).countP (fun φ => ! φ.isReleased) ≤ 5
        rw [he]; exact hfl
      · intro hd
        exact WPhase.noConfusion (all_released_get s.phases i _ (hdone hd).2 hp)
      · intro hr
        obtain ⟨hcl, _, _⟩ := hres hr
        exact WPhase.noConfusion (all_released_get s.phases i _ (hdone (hch hcl)).2 hp)
    all_goals exact Option.noConfusion hstep
  | tryErr i =>
    simp only [dStep] at hstep
    split at hstep
    next hp =>
      split at hstep
      next hslot =>
        injection hstep with h2
        subst h2
        have he : (s.phases.set i WPhase.toCb).countP (fun φ => ! φ.isReleased) =
            s.phases.countP (fun φ => ! φ.isReleased) :=
          countP_set_eq _ s.phases i _ _ hp rfl
        refine ⟨?_, hle, ?_, ?_, hch, hres, hcoll⟩
        · simp [hlen]
        · show (s.phases.set i WPhase.toCb).countP (fun φ => ! φ.isReleased) ≤ 5
          rw [he]; exact hfl
        · intro hd
          exact WPhase.noConfusion (all_released_get s.phases i _ (hdone hd).2 hp)
      next e hslot =>
        injection hstep with h2
        subst h2
        have he : (s.phases.set i WPhase.toRelease).countP (fun φ => ! φ.isReleased) =
            s.phases.countP (fun φ => ! φ.isReleased) :=
          countP_set_eq _ s.phases i _ _ hp rfl
        refine ⟨?_, hle, ?_, ?_, hch, hres, hcoll⟩
        · simp [hlen]
        · show (s.phases.set i WPhase.toRelease).countP (fun φ => ! φ.isReleased) ≤ 5
          rw [he]; exact hfl
        · intro hd
          exact WPhase.noConfusion (all_released_get s.phases i _ (hdone hd).2 hp)
    all_goals exact Option.noConfusion hstep
  | cbBegin i =>
    simp only [dStep] at hstep
    split at hstep
    next hp =>
      injection hstep with h2
      subst h2
      have he : (s.phases.set i WPhase.inCb).countP (fun φ => ! φ.isReleased) =
          s.phases.countP (fun φ => ! φ.isReleased) :=
        countP_set_eq _ s.phases i _ _ hp rfl
      refine ⟨?_, hle, ?_, ?_, hch, hres, hcoll⟩
      · simp [hlen]
      · show (s.phases.set i WPhase.inCb).countP (fun φ => ! φ.isReleased) ≤ 5
        rw [he]; exact hfl
      · intro hd
        exact WPhase.noConfusion (all_released_get s.phases i _ (hdone hd).2 hp)
    all_goals exact Option.noConfusion hstep
  | cbEnd i =>
    simp only [dStep] at hstep
    split at hstep
    next hp =>
      injection hstep with h2
      subst h2
      have he : (s.phases.set i WPhase.toRelease).countP (fun φ => ! φ.isReleased) =
          s.phases.countP (fun φ => ! φ.isReleased) :=
        countP_set_eq _ s.phases i _ _ hp rfl
      refine ⟨?_, hle, ?_, ?_, hch, hres, hcoll⟩
      · simp [hlen]
      · show (s.phases.set i WPhase.toRelease).countP (fun φ => ! φ.isReleased) ≤ 5
        rw [he]; exact hfl
      · intro hd
        exact WPhase.noConfusion (all_released_get s.phases i _ (hdone hd).2 hp)
    all_goals exact Option.noConfusion hstep
  | release i =>
    simp only [dStep] at hstep
    split at hstep
    next hp =>
      injection hstep with h2
      subst h2
      have he : (s.phases.set i WPhase.released).countP (fun φ => ! φ.isReleased) + 1 =
          s.phases.countP (fun φ => ! φ.isReleased) :=
        countP_set_decr _ s.phases i _ _ hp rfl rfl
      refine ⟨?_, hle, ?_, ?_, hch, hres, hcoll⟩
      · simp [hlen]
      · show (s.phases.set i WPhase.released).countP (fun φ => ! φ.isReleased) ≤ 5
        have h2 : s.phases.countP (fun φ => ! φ.isReleased) ≤ 5 := hfl
        omega
      · intro hd
        exact WPhase.noConfusion (all_released_get s.phases i _ (hdone hd).2 hp)
    all_goals exact Option.noConfusion hstep
  | closeDone =>
    simp only [dStep] at hstep
    by_cases hc : s.launched = inputs.length ∧ s.phases.all WPhase.isReleased = true ∧
        s.doneClosed = false
    · rw [if_pos hc] at hstep
      injection hstep with h2
      subst h2
      exact ⟨hlen, hle, hfl, fun _ => ⟨hc.1, hc.2.1⟩, fun _ => rfl, hres, hcoll⟩
    · rw [if_neg hc] at hstep
      exact Option.noConfusion hstep
  | closeFiles =>
    simp only [dStep] at hstep
    by_cases hc : s.doneClosed = true ∧ s.chClosed = false
    · rw [if_pos hc] at hstep
      injection hstep with h2
      subst h2
      refine ⟨hlen, hle, hfl, hdone, fun _ => hc.1, ?_, hcoll⟩
      intro hr
      exact ⟨rfl, (hres hr).2.1, (hres hr).2.2⟩
    · rw [if_neg hc] at hstep
      exact Option.noConfusion hstep
  | recvErr =>
    simp only [dStep] at hstep
    by_cases hc : s.launched = inputs.length ∧ s.collecting = true
    · rw [if_pos hc] at hstep
      split at hstep
      next e hslot =>
        injection hstep with h2
        subst h2
        refine ⟨hlen, hle, hfl, hdone, hch, ?_, ?_⟩
        · intro hr
          rw [hcoll hc.2] at hr
          simp at hr
        · intro h
          exact Bool.noConfusion h
      next hslot => exact Option.noConfusion hstep
    · rw [if_neg hc] at hstep
      exact Option.noConfusion hstep
  | recvFile =>
    simp only [dStep] at hstep
    by_cases hc : s.launched = inputs.length ∧ s.collecting = true
    · rw [if_pos hc] at hstep
      split at hstep
      next f rest hbuf =>
        injection hstep with h2
        subst h2
        refine ⟨hlen, hle, hfl, hdone, hch, ?_, ?_⟩
        · intro hr
          rw [hcoll hc.2] at hr
          simp at hr
        · intro h
          exact hcoll h
      next hbuf =>
        by_cases hcl : s.chClosed = true
        · rw [if_pos hcl] at hstep
          injection hstep with h2
          subst h2
          exact ⟨hlen, hle, hfl, hdone, hch, hres, hcoll⟩
        · rw [if_neg hcl] at hstep
          exact Option.noConfusion hstep
    · rw [if_neg hc] at hstep
      exact Option.noConfusion hstep
  | recvDone =>
    simp only [dStep] at hstep
    by_cases hc : s.launched = inputs.length ∧ s.collecting = true ∧ s.doneClosed = true
    · rw [if_pos hc] at hstep
      injection hstep with h2
      subst h2
      refine ⟨hlen, hle, hfl, hdone, hch, ?_, ?_⟩
      · intro hr
        rw [hcoll hc.2.1] at hr
        simp at hr
      · intro h
        exact Bool.noConfusion h
    · rw [if_neg hc] at hstep
      exact Option.noConfusion hstep
  | drain =>
    simp only [dStep] at hstep
    by_cases hc : s.collecting = false ∧ s.result = none
    · rw [if_pos hc] at hstep
      split at hstep
      next f rest hbuf =>
        injection hstep with h2
        subst h2
        refine ⟨hlen, hle, hfl, hdone, hch, ?_, ?_⟩
        · intro hr
          rw [hc.2] at hr
          simp at hr
        · intro _
          exact hc.2
      next hbuf => exact Option.noConfusion hstep
    · rw [if_neg hc] at hstep
      exact Option.noConfusion hstep
  | finish =>
    simp only [dStep] at hstep
    by_cases hc : s.collecting = false ∧ s.result = none ∧ s.chClosed = true ∧
        s.fileBuf = []
    · rw [if_pos hc] at hstep
      injection hstep with h2
      subst h2
      refine ⟨hlen, hle, hfl, hdone, hch, ?_, ?_⟩
      · intro _
        exact ⟨hc.2.2.1, hc.1, hc.2.2.2⟩
      · intro h
        rw [hc.1] at h
        exact Bool.noConfusion h
    · rw [if_neg hc] at hstep
      exact Option.noConfusion hstep

theorem baseInv_run (inputs : List PageSpec) :
    ∀ (sched : List DStep) (s s2 : DState), dRun inputs sched s = some s2 →
      BaseInv inputs s → BaseInv inputs s2 := by
  intro sched
  induction sched with
  | nil =>
    intro s s2 hrun hinv
    simp only [dRun] at hrun
    injection hrun with h2
    subst h2
    exact hinv
  | cons st rest ih =>
    intro s s2 hrun hinv
    simp only [dRun] at hrun
    split at hrun
    next s1 hstep => exact ih s1 s2 hrun (baseInv_step inputs s s1 st hinv hstep)
    next hstep => exact Option.noConfusion hrun

theorem succInv_init (inputs : List PageSpec) : SuccInv inputs initD := by
  refine ⟨?_, rfl, rfl, ?_, rfl, ?_⟩
  · intro φ hφ; simp [initD] at hφ
  · simp [collMS, initD, pendingOf]
  · intro r hr; simp [initD] at hr

theorem succInv_step (inputs : List PageSpec) (s s2 : DState) (st : DStep)
    (hall : ∀ p ∈ inputs, p.body.isSome = true) (hbase : BaseInv inputs s)
    (hinv : SuccInv inputs s) (hstep : dStep inputs s st = some s2) :
    SuccInv inputs s2 := by
  obtain ⟨hnoerr, herr, hdl, hcms, hcb, hrv⟩ := hinv
  obtain ⟨hlen, hle, hfl, hdone, hch, hres, hcollB⟩ := hbase
  cases st with
  | launch =>
    simp only [dStep] at hstep
    split at hstep
    next p hp =>
      by_cases hlt : inFlight s < 5
      · rw [if_pos hlt] at hstep
        injection hstep with h2
        subst h2
        have hbody := hall p (List.get?_mem hp)
        cases hb : p.body with
        | none => rw [hb] at hbody; simp at hbody
        | some b =>
          have hlp : launchPhase p = .toSend ⟨b, p.number⟩ := by simp [launchPhase, hb]
          have hsf : specFile p = (⟨b, p.number⟩ : File) := by simp [specFile, hb]
          refine ⟨?_, herr, hdl, ?_, ?_, ?_⟩
          · intro φ hφ
            rcases List.mem_append.mp hφ with hφ | hφ
            · exact hnoerr φ hφ
            · rw [List.mem_singleton] at hφ
              subst hφ
              rw [hlp]
              exact fun hh => WPhase.noConfusion hh
          · have key : (s.files : Multiset File) + (s.fileBuf : Multiset File) +
                ((pendingOf s.phases : List File) : Multiset File) =
                (((inputs.take s.launched).map specFile : List File) : Multiset File) := hcms
            show (s.files : Multiset File) + (s.fileBuf : Multiset File) +
                ((pendingOf (s.phases ++ [launchPhase p]) : List File) : Multiset File) =
              (((inputs.take (s.launched + 1)).map specFile : List File) : Multiset File)
            rw [pendingOf_append, hlp, List.take_succ, ← List.get?_eq_getElem?, hp]
            simp only [Option.toList, List.map_append, List.map_cons, List.map_nil, hsf]
            show _ + _ + ((pendingOf s.phases ++ [(⟨b, p.number⟩ : File)] : List File) :
              Multiset File) = _
            rw [coeAppendF, coeAppendF, ← add_assoc, key]
          · show countCb s.events = (s.phases ++ [launchPhase p]).countP WPhase.pastCb
            have h0 : List.countP WPhase.pastCb [launchPhase p] = 0 := by rw [hlp]; rfl
            rw [List.countP_append, h0]
            simpa using hcb
          · intro r hr
            exact hrv r hr
      · rw [if_neg hlt] at hstep
        exact Option.noConfusion hstep
    next hp => exact Option.noConfusion hstep
  | sendFile i =>
    simp only [dStep] at hstep
    split at hstep
    next f hp =>
      injection hstep with h2
      subst h2
      refine ⟨?_, herr, hdl, ?_, ?_, ?_⟩
      · intro φ hφ
        rcases List.mem_or_eq_of_mem_set hφ with hφ | hφ
        · exact hnoerr φ hφ
        · subst hφ; exact fun hh => WPhase.noConfusion hh
      · have key : (s.files : Multiset File) + (s.fileBuf : Multiset File) +
            ((pendingOf s.phases : List File) : Multiset File) =
            (((inputs.take s.launched).map specFile : List File) : Multiset File) := hcms
        have hrem := pendingOf_set_remove s.phases i f WPhase.toCb hp
          (fun g => fun hh => WPhase.noConfusion hh)
        show (s.files : Multiset File) + ((s.fileBuf ++ [f] : List File) : Multiset File) +
            ((pendingOf (s.phases.set i WPhase.toCb) : List File) : Multiset File) =
          (((inputs.take s.launched).map specFile : List File) : Multiset File)
        rw [coeAppendF, ← key, hrem]
        have h4 : (([f] : List File) : Multiset File) = f ::ₘ 0 := rfl
        rw [h4, ← Multiset.singleton_add, ← Multiset.singleton_add]
        simp [add_assoc, add_left_comm, add_comm]
      · show countCb s.events = (s.phases.set i WPhase.toCb).countP WPhase.pastCb
        rw [countP_set_eq WPhase.pastCb s.phases i (WPhase.toSend f) WPhase.toCb hp rfl]
        exact hcb
      · intro r hr
        exact hrv r hr
    all_goals exact Option.noConfusion hstep
  | tryErr i =>
    simp only [dStep] at hstep
    split at hstep
    next hp => exact absurd rfl (hnoerr _ (List.get?_mem hp))
    all_goals exact Option.noConfusion hstep
  | cbBegin i =>
    simp only [dStep] at hstep
    split at hstep
    next hp =>
      injection hstep with h2
      subst h2
      refine ⟨?_, herr, hdl, ?_, ?_, ?_⟩
      · intro φ hφ
        rcases List.mem_or_eq_of_mem_set hφ with hφ | hφ
        · exact hnoerr φ hφ
        · subst hφ; exact fun hh => WPhase.noConfusion hh
      · show (s.files : Multiset File) + s.fileBuf +
            ((pendingOf (s.phases.set i WPhase.inCb) : List File) : Multiset File) =
          ((inputs.take s.launched).map specFile : Multiset File)
        rw [pendingOf_set_stable s.phases i _ _ hp (fun g => fun hh => WPhase.noConfusion hh)
          (fun g => fun hh => WPhase.noConfusion hh)]
        exact hcms
      · show countCb (s.events ++ [TEvent.cbBegin i]) =
            (s.phases.set i WPhase.inCb).countP WPhase.pastCb
        have h1 : countCb (s.events ++ [TEvent.cbBegin i]) = countCb s.events + 1 := by
          simp [countCb, List.countP_append, List.countP_cons]
        rw [h1, countP_set_incr WPhase.pastCb s.phases i WPhase.toCb WPhase.inCb hp rfl rfl, hcb]
      · intro r hr
        exact hrv r hr
    all_goals exact Option.noConfusion hstep
  | cbEnd i =>
    simp only [dStep] at hstep
    split at hstep
    next hp =>
      injection hstep with h2
      subst h2
      refine ⟨?_, herr, hdl, ?_, ?_, ?_⟩
      · intro φ hφ
        rcases List.mem_or_eq_of_mem_set hφ with hφ | hφ
        · exact hnoerr φ hφ
        · subst hφ; exact fun hh => WPhase.noConfusion hh
      · show (s.files : Multiset File) + s.fileBuf +
            ((pendingOf (s.phases.set i WPhase.toRelease) : List File) : Multiset File) =
          ((inputs.take s.launched).map specFile : Multiset File)
        rw [pendingOf_set_stable s.phases i _ _ hp (fun g => fun hh => WPhase.noConfusion hh)
          (fun g => fun hh => WPhase.noConfusion hh)]
        exact hcms
      · show countCb (s.events ++ [TEvent.cbEnd i]) =
            (s.phases.set i WPhase.toRelease).countP WPhase.pastCb
        have h1 : countCb (s.events ++ [TEvent.cbEnd i]) = countCb s.events := by
          simp [countCb, List.countP_append, List.countP_cons]
        rw [h1, countP_set_eq WPhase.pastCb s.phases i WPhase.inCb WPhase.toRelease hp rfl]
        exact hcb
      · intro r hr
        exact hrv r hr
    all_goals exact Option.noConfusion hstep
  | release i =>
    simp only [dStep] at hstep
    split at hstep
    next hp =>
      injection hstep with h2
      subst h2
      refine ⟨?_, herr, hdl, ?_, ?_, ?_⟩
      · intro φ hφ
        rcases List.mem_or_eq_of_mem_set hφ with hφ | hφ
        · exact hnoerr φ hφ
        · subst hφ; exact fun hh => WPhase.noConfusion hh
      · show (s.files : Multiset File) + s.fileBuf +
            ((pendingOf (s.phases.set i WPhase.released) : List File) : Multiset File) =
          ((inputs.take s.launched).map specFile : Multiset File)
        rw [pendingOf_set_stable s.phases i _ _ hp (fun g => fun hh => WPhase.noConfusion hh)
          (fun g => fun hh => WPhase.noConfusion hh)]
        exact hcms
      · show countCb s.events = (s.phases.set i WPhase.released).countP WPhase.pastCb
        rw [countP_set_eq WPhase.pastCb s.phases i WPhase.toRelease WPhase.released hp rfl]
        exact hcb
      · intro r hr
        exact hrv r hr
    all_goals exact Option.noConfusion hstep
  | closeDone =>
    simp only [dStep] at hstep
    by_cases hc : s.launched = inputs.length ∧ s.phases.all WPhase.isReleased = true ∧
        s.doneClosed = false
    · rw [if_pos hc] at hstep
      injection hstep with h2
      subst h2
      exact ⟨hnoerr, herr, hdl, hcms, hcb, hrv⟩
    · rw [if_neg hc] at hstep
      exact Option.noConfusion hstep
  | closeFiles =>
    simp only [dStep] at hstep
    by_cases hc : s.doneClosed = true ∧ s.chClosed = false
    · rw [if_pos hc] at hstep
      injection hstep with h2
      subst h2
      exact ⟨hnoerr, herr, hdl, hcms, hcb, hrv⟩
    · rw [if_neg hc] at hstep
      exact Option.noConfusion hstep
  | recvErr =>
    simp only [dStep] at hstep
    by_cases hc : s.launched = inputs.length ∧ s.collecting = true
    · rw [if_pos hc] at hstep
      split at hstep
      next e hslot =>
        rw [herr] at hslot
        exact Option.noConfusion hslot
      next hslot => exact Option.noConfusion hstep
    · rw [if_neg hc] at hstep
      exact Option.noConfusion hstep
  | recvFile =>
    simp only [dStep] at hstep
    by_cases hc : s.launched = inputs.length ∧ s.collecting = true
    · rw [if_pos hc] at hstep
      split at hstep
      next f rest hbuf =>
        injection hstep with h2
        subst h2
        refine ⟨hnoerr, herr, hdl, ?_, hcb, ?_⟩
        · have key : (s.files : Multiset File) + (s.fileBuf : Multiset File) +
              ((pendingOf s.phases : List File) : Multiset File) =
              (((inputs.take s.launched).map specFile : List File) : Multiset File) := hcms
          show ((s.files ++ [f] : List File) : Multiset File) + (rest : Multiset File) +
              ((pendingOf s.phases : List File) : Multiset File) =
            (((inputs.take s.launched).map specFile : List File) : Multiset File)
          rw [coeAppendF, ← key, hbuf]
          have h3 : ((f :: rest : List File) : Multiset File) = f ::ₘ (rest : Multiset File) := rfl
          have h4 : (([f] : List File) : Multiset File) = f ::ₘ 0 := rfl
          rw [h3, h4, ← Multiset.singleton_add, ← Multiset.singleton_add]
          simp [add_assoc, add_left_comm, add_comm]
        · intro r hr
          rw [hcollB hc.2] at hr
          exact Option.noConfusion hr
      next hbuf =>
        by_cases hcl : s.chClosed = true
        · rw [if_pos hcl] at hstep
          injection hstep with h2
          subst h2
          exact ⟨hnoerr, herr, hdl, hcms, hcb, hrv⟩
        · rw [if_neg hcl] at hstep
          exact Option.noConfusion hstep
    · rw [if_neg hc] at hstep
      exact Option.noConfusion hstep
  | recvDone =>
    simp only [dStep] at hstep
    by_cases hc : s.launched = inputs.length ∧ s.collecting = true ∧ s.doneClosed = true
    · rw [if_pos hc] at hstep
      injection hstep with h2
      subst h2
      exact ⟨hnoerr, herr, hdl, hcms, hcb, hrv⟩
    · rw [if_neg hc] at hstep
      exact Option.noConfusion hstep
  | drain =>
    simp only [dStep] at hstep
    by_cases hc : s.collecting = false ∧ s.result = none
    · rw [if_pos hc] at hstep
      split at hstep
      next f rest hbuf =>
        injection hstep with h2
        subst h2
        refine ⟨hnoerr, herr, hdl, ?_, hcb, ?_⟩
        · have key : (s.files : Multiset File) + (s.fileBuf : Multiset File) +
              ((pendingOf s.phases : List File) : Multiset File) =
              (((inputs.take s.launched).map specFile : List File) : Multiset File) := hcms
          show ((s.files ++ [f] : List File) : Multiset File) + (rest : Multiset File) +
              ((pendingOf s.phases : List File) : Multiset File) =
            (((inputs.take s.launched).map specFile : List File) : Multiset File)
          rw [coeAppendF, ← key, hbuf]
          have h3 : ((f :: rest : List File) : Multiset File) = f ::ₘ (rest : Multiset File) := rfl
          have h4 : (([f] : List File) : Multiset File) = f ::ₘ 0 := rfl
          rw [h3, h4, ← Multiset.singleton_add, ← Multiset.singleton_add]
          simp [add_assoc, add_left_comm, add_comm]
        · intro r hr
          rw [hc.2] at hr
          exact Option.noConfusion hr
      next hbuf => exact Option.noConfusion hstep
    · rw [if_neg hc] at hstep
      exact Option.noConfusion hstep
  | finish =>
    simp only [dStep] at hstep
    by_cases hc : s.collecting = false ∧ s.result = none ∧ s.chClosed = true ∧
        s.fileBuf = []
    · rw [if_pos hc] at hstep
      injection hstep with h2
      subst h2
      refine ⟨hnoerr, herr, hdl, hcms, hcb, ?_⟩
      intro r hr
      rw [hdl] at hr
      injection hr with h3
      exact h3.symm
    · rw [if_neg hc] at hstep
      exact Option.noConfusion hstep

theorem succInv_run (inputs : List PageSpec)
    (hall : ∀ p ∈ inputs, p.body.isSome = true) :
    ∀ (sched : List DStep) (s s2 : DState), dRun inputs sched s = some s2 →
      BaseInv inputs s → SuccInv inputs s → SuccInv inputs s2 := by
  intro sched
  induction sched with
  | nil =>
    intro s s2 hrun _ hinv
    simp only [dRun] at hrun
    injection hrun with h2
    subst h2
    exact hinv
  | cons st rest ih =>
    intro s s2 hrun hbase hinv
    simp only [dRun] at hrun
    split at hrun
    next s1 hstep =>
      exact ih s1 s2 hrun (baseInv_step inputs s s1 st hbase hstep)
        (succInv_step inputs s s1 st hall hbase hinv hstep)
    next hstep => exact Option.noConfusion hrun

/-- C1: for every chapter whose fetches all succeed and every schedule (hence
every completion order) under which `FetchChapter` returns, it returns no error
and exactly N files — a permutation of the expected files of the N input pages —
sorted ascending by page number; for N = 0 this is the empty list and no
error. -/
theorem fetchChapter_success_sorted_output (inputs : List PageSpec)
    (hall : ∀ p ∈ inputs, p.body.isSome = true) (sched : List DStep) (s : DState)
    (hrun : dRun inputs sched initD = some s)
    (r : Option (List File) × Option Nat) (hres : s.result = some r) :
    r.2 = none ∧ ∃ fs : List File, r.1 = some fs ∧ fs.length = inputs.length ∧
      fs.Perm (inputs.map specFile) ∧ List.Pairwise pageLE fs := by
  have hbase := baseInv_run inputs sched initD s hrun (baseInv_init inputs)
  have hsucc := succInv_run inputs hall sched initD s hrun (baseInv_init inputs)
    (succInv_init inputs)
  obtain ⟨hlen, hle, hfl, hdone, hch, hresB, hcollB⟩ := hbase
  obtain ⟨hnoerr, herr, hdl, hcms, hcb, hrv⟩ := hsucc
  have hr := hrv r hres
  subst hr
  have hsome : s.result.isSome = true := by rw [hres]; rfl
  obtain ⟨hcl, hco, hbuf⟩ := hresB hsome
  obtain ⟨hlN, hallrel⟩ := hdone (hch hcl)
  have hpend := pendingOf_eq_nil s.phases hallrel
  have key : (s.files : Multiset File) + (s.fileBuf : Multiset File) +
      ((pendingOf s.phases : List File) : Multiset File) =
      (((inputs.take s.launched).map specFile : List File) : Multiset File) := hcms
  rw [hbuf, hpend, hlN, List.take_length] at key
  have key2 : (s.files : Multiset File) =
      ((inputs.map specFile : List File) : Multiset File) := by
    simpa using key
  have hperm : s.files.Perm (inputs.map specFile) := Multiset.coe_eq_coe.mp key2
  refine ⟨rfl, sortByPage s.files, rfl, ?_, ?_, sortByPage_pairwise s.files⟩
  · rw [((sortByPage_perm s.files).trans hperm).length_eq, List.length_map]
  · exact (sortByPage_perm s.files).trans hperm

/-- Witness for C1 at a one-page chapter run to completion: the returned value
is `([file 1], no error)` and satisfies the conclusion. -/
theorem fetchChapter_success_sorted_output_witness :
    (∀ p ∈ onePage, p.body.isSome = true) ∧
    (((some [(⟨[9], 1⟩ : File)] : Option (List File)), (none : Option Nat)).2 = none ∧
      ∃ fs : List File,
        ((some [(⟨[9], 1⟩ : File)] : Option (List File)), (none : Option Nat)).1 =
          some fs ∧
        fs.length = onePage.length ∧ fs.Perm (onePage.map specFile) ∧
        List.Pairwise pageLE fs) :=
  ⟨by decide, fetchChapter_success_sorted_output onePage (by decide) onePageSched _
    rfl (some [⟨[9], 1⟩], none) rfl⟩

/-- C2, failing schedule: with page 1 succeeding and page 2 failing, there is a
valid interleaving — both workers finish, the collector's `select` takes the
ready `done` case instead of the ready `errChan` case, the buffered file is
drained — under which `FetchChapter` returns a non-nil partial list `[file 1]`
and a nil error, although a page failed. This contradicts the claim (and the
repository's own test `TestFetchChapter_WithError`, which asserts nil files and
a non-nil error whenever a page fails). -/
theorem fetchChapter_error_dropped :
    dropPages.map PageSpec.body = [some [7], none] ∧
    (dRun dropPages dropSched initD).map DState.result =
      some (some (some [⟨[7], 1⟩], none)) :=
  ⟨rfl, rfl⟩

/-- C3: under every schedule, at every reachable instant the number of fetches
in flight (guard slots held) is at most the fixed limit 5, and when the run has
returned every slot has been released — the guard is released on both the
success and the failure path, so no slot is held permanently. -/
theorem fetchChapter_concurrency_bound_and_release (inputs : List PageSpec)
    (sched : List DStep) (s : DState) (hrun : dRun inputs sched initD = some s) :
    inFlight s ≤ 5 ∧ (s.result.isSome = true → inFlight s = 0) := by
  have hbase := baseInv_run inputs sched initD s hrun (baseInv_init inputs)
  obtain ⟨hlen, hle, hfl, hdone, hch, hresB, hcollB⟩ := hbase
  refine ⟨hfl, ?_⟩
  intro hr
  obtain ⟨hcl, _, _⟩ := hresB hr
  obtain ⟨_, hallrel⟩ := hdone (hch hcl)
  show s.phases.countP (fun φ => ! φ.isReleased) = 0
  rw [List.countP_eq_zero]
  intro φ hm
  have hφ := (List.all_eq_true.mp hallrel) φ hm
  simp [hφ]

/-- Witness for C3 at a completed one-page run: the bound holds and all slots
are free at the end. -/
theorem fetchChapter_concurrency_bound_and_release_witness :
    ∃ s : DState, dRun onePage onePageSched initD = some s ∧ inFlight s ≤ 5 ∧
      inFlight s = 0 :=
  ⟨_, rfl,
    (fetchChapter_concurrency_bound_and_release onePage onePageSched _ rfl).1,
    (fetchChapter_concurrency_bound_and_release onePage onePageSched _ rfl).2 rfl⟩

/-- C4 counterexample: with two pages both failing there is a valid completed
run with exactly one callback invocation, not N = 2: the second failure finds
`errChan` occupied, takes the `select` `default` branch and never calls
`onprogress`. -/
theorem fetchChapter_callback_missing_on_second_failure :
    ∃ s : DState, dRun twoFailPages twoFailSched initD = some s ∧
      s.result.isSome = true ∧ countCb s.events = 1 ∧ twoFailPages.length = 2 :=
  ⟨_, rfl, rfl, rfl, rfl⟩

/-- C4 amended: the callback is invoked exactly once per page in every completed
all-success run (N invocations, 0 for N = 0); a failed page invokes the callback
only when its error send captures the single error slot, so runs with two or
more failures can have fewer than N invocations. This theorem proves the
all-success count. -/
theorem fetchChapter_callback_once_per_success (inputs : List PageSpec)
    (hall : ∀ p ∈ inputs, p.body.isSome = true) (sched : List DStep) (s : DState)
    (hrun : dRun inputs sched initD = some s) (hres : s.result.isSome = true) :
    countCb s.events = inputs.length := by
  have hbase := baseInv_run inputs sched initD s hrun (baseInv_init inputs)
  have hsucc := succInv_run inputs hall sched initD s hrun (baseInv_init inputs)
    (succInv_init inputs)
  obtain ⟨hlen, hle, hfl, hdone, hch, hresB, hcollB⟩ := hbase
  obtain ⟨hnoerr, herr, hdl, hcms, hcb, hrv⟩ := hsucc
  obtain ⟨hcl, _, _⟩ := hresB hres
  obtain ⟨hlN, hallrel⟩ := hdone (hch hcl)
  rw [hcb]
  have hplen : s.phases.countP WPhase.pastCb = s.phases.length := by
    rw [List.countP_eq_length]
    intro φ hm
    have hφ := (List.all_eq_true.mp hallrel) φ hm
    cases φ <;> simp [WPhase.isReleased, WPhase.pastCb] at hφ ⊢
  rw [hplen, hlen, hlN]

/-- Witness for the amended C4 at a completed two-page all-success run: exactly
two invocations. -/
theorem fetchChapter_callback_once_per_success_witness :
    (∀ p ∈ twoOkPages, p.body.isSome = true) ∧
    (∃ s : DState, dRun twoOkPages overlapSched initD = some s ∧
      countCb s.events = twoOkPages.length) :=
  ⟨by decide, _, rfl,
    fetchChapter_callback_once_per_success twoOkPages (by decide) overlapSched _
      rfl rfl⟩

/-- C10 counterexample: a valid completed run of two successful pages in which
worker 1's callback invocation begins after worker 0's begins and before worker
0's ends — two invocations of the progress callback execute concurrently, so the
Downloader does not serialize them. -/
theorem fetchChapter_overlapping_callbacks_counterexample :
    ∃ s : DState, dRun twoOkPages overlapSched initD = some s ∧
      s.result.isSome = true ∧ hasOverlap s.events = true :=
  ⟨_, rfl, rfl, rfl⟩

/-- C10 amended: `FetchChapter` does not serialize progress-callback
invocations: there are valid executions (two successful pages suffice) in which
two invocations are concurrently in progress, so the caller's callback must be
safe under concurrent invocation. -/
theorem fetchChapter_callbacks_not_serialized :
    ∃ (sched : List DStep) (s : DState), dRun twoOkPages sched initD = some s ∧
      s.result.isSome = true ∧ hasOverlap s.events = true :=
  ⟨overlapSched2, _, rfl, rfl, rfl⟩

end Downloader

end Mango
